import Mathlib

/-!
Verification of the `ai_context_dump.py` ignore-rule matching and
tree-traversal engine, as a shallow embedding in Lean.

Modelling conventions:

* Filesystem paths are lists of path segments (`Path := List String`),
  understood as absolute POSIX paths; `os.path.join root d` becomes
  `root ++ [d]`, `os.path.relpath p root` becomes `p.drop root.length`
  (call sites only ever pass `p` lying under `root`), `os.path.basename`
  becomes the last segment, `os.path.dirname` becomes `List.dropLast`.
* Python's `os.path.isdir` queries the live filesystem; the embedding
  passes the answer explicitly (either as a `Bool` oracle or by looking
  up a pure filesystem tree `FSDir`).
* `str.lower()` is modelled by `strLower` (per-character ASCII case folding).
* The program builds regular-expression strings with `Util.glob_to_regex`
  and evaluates them with `re.match(regex, s, re.IGNORECASE)`.  The
  embedding parses exactly the regex fragment such strings can contain
  (`^`, trailing `$`, `.`, `.*`, `\c` escapes, simple `[...]` classes,
  plain literal characters) into `List RElem` and runs a backtracking
  matcher `reMatch`.  Regex constructs outside the fragment (nested or
  malformed classes, `{m,n}` repetition, stray metacharacters — which in
  Python either raise `re.error` or have exotic semantics) make the parse
  fail and the modelled match return `false`; no theorem below depends on
  that conservative default except under explicit hypotheses that exclude
  those characters.  Two further deliberate abstractions: Python's `$`
  also matches just before a trailing `'\n'`, and `re.IGNORECASE` is
  redundant here because every call site lowercases both the pattern and
  the candidate first; the model treats `$` as strict end of string and
  drops the redundant flag.
-/

namespace AiContextDump

abbrev Path := List String

/-- `Util.to_posix`: replace every backslash with a forward slash. -/
def toPosix (s : String) : String :=
  String.mk (s.data.map (fun c => if c = '\\' then '/' else c))

/-- Python's `str.lower()` (ASCII case folding, applied per character). -/
def strLower (s : String) : String :=
  String.mk (s.data.map Char.toLower)

/-- Python's `str.strip()`: drop leading and trailing whitespace
(character-level, so that the model evaluates by kernel reduction). -/
def strTrim (s : String) : String :=
  String.mk (((s.data.dropWhile Char.isWhitespace).reverse.dropWhile
    Char.isWhitespace).reverse)

/-- Python's `str.split(sep)` for a one-character separator (`"" .split`
never occurs; splitting the empty string yields `[""]`, as in Python). -/
def splitOnChar (sep : Char) : List Char → List (List Char)
  | [] => [[]]
  | c :: rest =>
    match splitOnChar sep rest with
    | [] => [[]]
    | r :: rs => if c = sep then [] :: r :: rs else (c :: r) :: rs

/-- `Util.norm_ext`: strip, lowercase, and ensure a leading dot (empty input stays empty). -/
def norm_ext (s : String) : String :=
  let t := strLower (strTrim s)
  if t = "" then ""
  else if t.data.head? = some '.' then t
  else "." ++ t

/-- `os.path.basename` on a segment path: the last segment (empty for the empty path). -/
def baseName (p : Path) : String :=
  p.getLastD ""

/-- The extension part of `os.path.splitext`, computed on a basename:
the suffix from the last dot, except that leading dots of the basename
never start an extension (`.bashrc` has extension `""`). -/
def splitext_ext (name : String) : String :=
  let cs := name.data
  let lead := (cs.takeWhile (fun c => c = '.')).length
  let rest := cs.drop lead
  if rest.contains '.' then
    String.mk ('.' :: (rest.reverse.takeWhile (fun c => c != '.')).reverse)
  else ""

/-- The characters `Util.glob_to_regex` escapes: the Python string `".()+|^$@%"`. -/
def escapeChars : List Char :=
  ['.', '(', ')', '+', '|', '^', '$', '@', '%']

/-- `Util.glob_to_regex`: start from `"^"`, translate `*` to `.*`, `?` to `.`,
escape the characters of `".()+|^$@%"`, copy every other character verbatim,
and append `"$"`. -/
def glob_to_regex (pattern : String) : String :=
  (pattern.data.foldl (fun sb c =>
    if c = '*' then sb ++ ".*"
    else if c = '?' then sb ++ "."
    else if escapeChars.contains c then sb ++ "\\" ++ c.toString
    else sb ++ c.toString) "^") ++ "$"

/-- One regex atom of the fragment produced by `glob_to_regex`. -/
inductive RAtom where
  | lit (c : Char)
  | any
  | cls (cs : List Char)
  deriving Repr, DecidableEq

/-- A regex element: a single atom or a starred atom. -/
inductive RElem where
  | atom (a : RAtom)
  | star (a : RAtom)
  deriving Repr, DecidableEq

/-- Does atom `a` match character `c`?  `.` matches everything except `'\n'`
(Python `re` without `DOTALL`); a class matches its members. -/
def amatch : RAtom → Char → Bool
  | RAtom.lit d, c => d == c
  | RAtom.any, c => c != '\n'
  | RAtom.cls cs, c => cs.contains c

/-- Regex metacharacters that `glob_to_regex` can leave unescaped in its
output but whose Python semantics the model does not reproduce; parsing
fails on them (conservative: the modelled match is `false`). -/
def specialChars : List Char :=
  ['*', '+', '?', '\x7b', '\x7d', ']', '(', ')', '|', '^', '$', '\\']

/-- Parse the inside of a simple character class, up to the closing `]`.
Only plain member characters are supported; negation, ranges, escapes and
nested brackets make the parse fail. -/
def parseClass : List Char → Option (List Char × List Char)
  | [] => none
  | c :: rest =>
    if c = ']' then some ([], rest)
    else if c = '\\' ∨ c = '[' ∨ c = '-' ∨ c = '^' then none
    else (parseClass rest).map (fun p => (c :: p.1, p.2))

/-- Parse the body of a regex produced by `glob_to_regex` (between the
leading `^` and the trailing `$`) into a list of elements.  `fuel` bounds
the recursion; every step consumes at least one character, so any
`fuel > length` is enough. -/
def parseBody : Nat → List Char → Option (List RElem)
  | _, [] => some []
  | 0, _ :: _ => none
  | fuel + 1, c :: rest =>
    if c = '\\' then
      match rest with
      | [] => none
      | e :: rest' =>
        if escapeChars.contains e then
          (parseBody fuel rest').map (fun rs => RElem.atom (RAtom.lit e) :: rs)
        else none
    else if c = '.' then
      if rest.head? = some '*' then
        (parseBody fuel rest.tail).map (fun rs => RElem.star RAtom.any :: rs)
      else (parseBody fuel rest).map (fun rs => RElem.atom RAtom.any :: rs)
    else if c = '[' then
      match parseClass rest with
      | some (cs, rest') =>
        if cs.isEmpty then none
        else (parseBody fuel rest').map (fun rs => RElem.atom (RAtom.cls cs) :: rs)
      | none => none
    else if specialChars.contains c then none
    else (parseBody fuel rest).map (fun rs => RElem.atom (RAtom.lit c) :: rs)

/-- Parse a full regex string produced by `glob_to_regex`: a leading `^`,
a body, and a trailing `$`. -/
def parseRegexL (cs : List Char) : Option (List RElem) :=
  match cs with
  | '^' :: rest =>
    if rest.getLast? = some '$' then parseBody rest.length rest.dropLast
    else none
  | _ => none

/-- Anchored matching of a parsed regex against a character list
(backtracking over the two ways to use a starred atom). -/
def reMatch : List RElem → List Char → Bool
  | [], cs => cs.isEmpty
  | RElem.atom a :: rs, cs =>
    (match cs with
     | [] => false
     | c :: cs' => amatch a c && reMatch rs cs')
  | RElem.star a :: rs, cs =>
    reMatch rs cs ||
      (match cs with
       | [] => false
       | c :: cs' => amatch a c && reMatch (RElem.star a :: rs) cs')
termination_by re cs => re.length + cs.length
decreasing_by all_goals simp_arith

/-- The model of `re.match(regex, s, re.IGNORECASE)` as the program uses it:
full-string (anchored) matching of the compiled regex string.  Call sites
lowercase both arguments themselves, which makes `IGNORECASE` redundant. -/
def reFullMatch (regex : String) (s : String) : Bool :=
  match parseRegexL regex.data with
  | some r => reMatch r s.data
  | none => false

/-- Modelled from the spec: the declared glob semantics, in which `*`
matches any run of characters (including none), `?` matches exactly one
character, and every other pattern character matches exactly itself;
matching is anchored (whole string). -/
def specGlobMatch : List Char → List Char → Bool
  | [], cs => cs.isEmpty
  | p :: ps, cs =>
    if p = '*' then
      specGlobMatch ps cs ||
        (match cs with
         | [] => false
         | _ :: cs' => specGlobMatch (p :: ps) cs')
    else
      match cs with
      | [] => false
      | c :: cs' => (if p = '?' then true else p == c) && specGlobMatch ps cs'
termination_by ps cs => ps.length + cs.length
decreasing_by all_goals simp_arith

/-- The program's compiled matcher together with the case folding its call
sites apply: lowercase the pattern, compile, lowercase the candidate, match. -/
def glob_match_ci (pat cand : String) : Bool :=
  reFullMatch (glob_to_regex (strLower pat)) (strLower cand)

/-- Modelled from the spec: the claimed matcher — anchored, case-insensitive
glob semantics with all non-wildcard characters literal. -/
def spec_glob_ci (pat cand : String) : Bool :=
  specGlobMatch (strLower pat).data (strLower cand).data

/-- `match_pattern`: lowercase the relative path, basename and
separator-normalized pattern; if the pattern contains `/`, match it against
the whole relative path, otherwise against the basename or any segment. -/
def match_pattern (rel_posix : String) (parts : List String) (basename : String)
    (pat : String) : Bool :=
  let rp := strLower rel_posix
  let bn := strLower basename
  let pt := strLower (toPosix pat)
  let regex_str := glob_to_regex pt
  if pt.data.contains '/' then reFullMatch regex_str rp
  else if reFullMatch regex_str bn then true
  else parts.any (fun p => reFullMatch regex_str (strLower p))

/-- Characters whose regex meaning `glob_to_regex` does not neutralize:
`[`, `]`, the two curly braces, and backslash. -/
def badChars : List Char := ['[', ']', '\x7b', '\x7d', '\\']

/-- The regex text `glob_to_regex` emits for one pattern character. -/
def emitChar (c : Char) : List Char :=
  if c = '*' then ['.', '*']
  else if c = '?' then ['.']
  else if escapeChars.contains c then ['\\', c]
  else [c]

/-- The regex body `glob_to_regex` emits for a whole pattern
(everything between the leading `^` and the trailing `$`). -/
def globBody : List Char → List Char
  | [] => []
  | c :: ps => emitChar c ++ globBody ps

/-- The parsed regex element corresponding to one glob pattern character. -/
def elemOf (c : Char) : RElem :=
  if c = '*' then RElem.star RAtom.any
  else if c = '?' then RElem.atom RAtom.any
  else RElem.atom (RAtom.lit c)

/-- `OutputConfig` from the settings model. -/
structure OutputConfig where
  mode : String
  single_file : String
  structure_file : String
  code_file : String
  path_style : String
  deriving Repr, DecidableEq

/-- `ClipboardConfig` from the settings model. -/
structure ClipboardConfig where
  enabled : Bool
  text : String
  deriving Repr, DecidableEq

/-- `IgnoreConfig` from the settings model; the extension set is modelled
as the list of its (already normalized) members. -/
structure IgnoreConfig where
  extensions : List String
  patterns : List String
  dir_rules : List String
  deriving Repr, DecidableEq

/-- `Settings`; `iter_root` is the absolute root as a segment path. -/
structure Settings where
  iter_root : Path
  os_style : String
  output : OutputConfig
  clipboard : ClipboardConfig
  ignore : IgnoreConfig
  deriving Repr, DecidableEq

/-- The directory-prune rule derivation in `load_settings`: patterns ending
in `/*` or `/` (after strip and separator normalization) contribute the
pattern with that trailing part removed. -/
def derive_dir_rules (raw_patterns : List String) : List String :=
  raw_patterns.foldr (fun p acc =>
    let p2 := toPosix (strTrim p)
    if p2.data.reverse.take 2 = ['*', '/'] then String.mk p2.data.dropLast.dropLast :: acc
    else if p2.data.reverse.take 1 = ['/'] then String.mk p2.data.dropLast :: acc
    else acc) []

/-- The mode extraction in `load_settings`:
`str(out_el.get("mode", "both")).lower()` for a string-or-missing field. -/
def parse_mode (modeField : Option String) : String :=
  strLower (modeField.getD "both")

/-- `is_pruned_dir`: a directory name is pruned when some derived rule,
lowercased and glob-compiled, matches the lowercased posix name. -/
def is_pruned_dir (dirname : String) (s : Settings) : Bool :=
  let dn := strLower (toPosix dirname)
  s.ignore.dir_rules.any (fun rule => reFullMatch (glob_to_regex (strLower rule)) dn)

/-- `is_ignored_path`.  `isDir` stands for the live `os.path.isdir(p)` query;
call sites pass the answer from the modelled filesystem.  `p` always lies
under `iter_root`, so `os.path.relpath(p, iter_root)` is `p.drop
iter_root.length`. -/
def is_ignored_path (iter_root : Path) (p : Path) (isDir : Bool) (s : Settings)
    (settings_filename : String) : Bool :=
  let name := baseName p
  if name == settings_filename then true
  else
    let rel := p.drop iter_root.length
    let rel_posix := String.intercalate "/" rel
    let parts := (splitOnChar '/' rel_posix.data).map String.mk
    if !isDir && s.ignore.extensions.contains (norm_ext (splitext_ext name)) then true
    else s.ignore.patterns.any (fun pat => match_pattern rel_posix parts name pat)

/-- A pure directory tree standing for the live filesystem under the
iteration root: named subdirectories and file names. -/
inductive FSDir where
  | node (dirs : List (String × FSDir)) (files : List String)
  deriving Repr

/-- The `os.walk` loop of `collect`: at each directory, drop subdirectories
that are pruned or ignored (the `dirs[:] = ...` mutation), append the
surviving files of the current directory, then descend into the kept
subdirectories in order. -/
def walkCollect (iter_root : Path) (s : Settings) (fn : String) : FSDir → Path → List Path
  | FSDir.node ds fs, cur =>
    let keptFiles := (fs.filter (fun f =>
      !(is_ignored_path iter_root (cur ++ [f]) false s fn))).map (fun f => cur ++ [f])
    let keptDirs := ds.filter (fun d =>
      !(is_pruned_dir d.1 s) && !(is_ignored_path iter_root (cur ++ [d.1]) true s fn))
    keptFiles ++
      (keptDirs.attach.map (fun d => walkCollect iter_root s fn d.1.2 (cur ++ [d.1.1]))).flatten
termination_by t => sizeOf t
decreasing_by
  have h1 : d.1 ∈ keptDirs := d.2
  have h2 : d.1 ∈ ds := List.mem_of_mem_filter h1
  have h3 := List.sizeOf_lt_of_mem h2
  cases hd : d.1 with
  | mk a b =>
    rw [hd] at h3
    simp only [FSDir.node.sizeOf_spec]
    simp [Prod.mk.sizeOf_spec] at h3
    omega

/-- The sort key of `collect`: root-relative, forward-slash, lowercased path. -/
def collectKey (iter_root : Path) (p : Path) : String :=
  strLower (String.intercalate "/" (p.drop iter_root.length))

/-- `collect`: fail-fast check of the root itself (evaluated against its
parent directory), then the pruning walk, then the final sort.  `rootDir`
is the filesystem tree under `s.iter_root`, or `none` when the iteration
root does not exist (in which case `os.walk` yields nothing). -/
def collect (s : Settings) (rootDir : Option FSDir) (settings_filename : String) :
    List Path × Bool :=
  let iter_root := s.iter_root
  let root_ignored :=
    is_ignored_path iter_root.dropLast iter_root rootDir.isSome s settings_filename
  if root_ignored then ([], true)
  else
    let all_files :=
      match rootDir with
      | none => []
      | some t => walkCollect iter_root s settings_filename t iter_root
    (all_files.mergeSort (fun a b => decide (collectKey iter_root a ≤ collectKey iter_root b)),
      false)

/-- Lowercase every segment (the `parent.lower() == full_root.lower()`
comparison of `build_index`). -/
def lowerPath (p : Path) : Path := p.map strLower

/-- Add a child to a children list unless already present (the `set.add`
dedup discipline of `build_index`). -/
def insertChild (children : List Path) (c : Path) : List Path :=
  if children.contains c then children else children ++ [c]

/-- Insert one (parent, child) edge into the association-list index:
update the entry for `parent` in place, or append a new entry at the end
(Python dicts keep insertion order; `idx[parent]` is a set, modelled by
`insertChild`). -/
def insertEdge : List (Path × List Path) → Path → Path → List (Path × List Path)
  | [], parent, child => [(parent, [child])]
  | e :: rest, parent, child =>
    if e.1 = parent then (e.1, insertChild e.2 child) :: rest
    else e :: insertEdge rest parent child

/-- The inner `while True` loop of `build_index`: walk from a file upward,
inserting each (parent, child) edge, stopping once the parent is the root
(case-insensitively) or no longer longer than the root. -/
def addAncestors (full_root : Path) (idx : List (Path × List Path)) (current : Path) :
    List (Path × List Path) :=
  if lowerPath current.dropLast = lowerPath full_root ∨
      current.dropLast.length ≤ full_root.length then
    insertEdge idx current.dropLast current
  else addAncestors full_root (insertEdge idx current.dropLast current) current.dropLast
termination_by current.length
decreasing_by
  simp only [List.length_dropLast] at *
  omega

/-- The sort rank of a child: directories before files. -/
def childKind (isDirF : Path → Bool) (c : Path) : Nat :=
  if isDirF c then 0 else 1

/-- The children ordering of `build_index`: by `(not isdir, basename.lower())`. -/
def childLE (isDirF : Path → Bool) (a b : Path) : Bool :=
  childKind isDirF a < childKind isDirF b ||
    (childKind isDirF a == childKind isDirF b &&
      decide (strLower (baseName a) ≤ strLower (baseName b)))

/-- `build_index`: insert the ancestor chain of every file, then sort each
children list (directories first, then case-insensitive alphabetical).
`isDirF` stands for the live `os.path.isdir` queries of the sort key. -/
def build_index (iter_root : Path) (files : List Path) (isDirF : Path → Bool) :
    List (Path × List Path) :=
  let idx := files.foldl (fun idx f => addAncestors iter_root idx f) []
  idx.map (fun e => (e.1, e.2.mergeSort (childLE isDirF)))

/-- The children list the index associates to a key (empty when the key is
absent). -/
def childrenOf (idx : List (Path × List Path)) (k : Path) : List Path :=
  ((idx.find? (fun e => e.1 == k)).map (fun e => e.2)).getD []

/-- The parent-child edges of the ancestor chain of one file with
root-relative segments `rel`: for each `j < rel.length`, the directory
`root ++ rel.take j` has child `root ++ rel.take (j+1)`. -/
def chainEdges (root : Path) (rel : List String) : List (Path × Path) :=
  (List.range rel.length).map (fun j => (root ++ rel.take j, root ++ rel.take (j + 1)))

/-- Look a relative segment path up in a filesystem tree. -/
def lookupDir : FSDir → List String → Option FSDir
  | t, [] => some t
  | FSDir.node ds _, seg :: rest =>
    match ds.find? (fun d => d.1 == seg) with
    | some d => lookupDir d.2 rest
    | none => none

/-- The `os.path.isdir` oracle induced by the modelled filesystem: a path is
a directory iff it lies under the iteration root and names a directory node. -/
def isDirAt (rootDir : Option FSDir) (iter_root : Path) (p : Path) : Bool :=
  match rootDir with
  | none => false
  | some t =>
    if iter_root.isPrefixOf p then (lookupDir t (p.drop iter_root.length)).isSome
    else false

/-- `dump_file`: header block plus raw content, or the fixed placeholder
when the file cannot be read as text.  `content` is the outcome of the
`open(...).read()` call: `none` models the `except:` branch (unreadable or
binary file), so the whole try/except becomes a total function. -/
def dump_file (iter_root : Path) (s : Settings) (file : Path) (content : Option String) :
    String :=
  let rel0 := String.intercalate "/" (file.drop iter_root.length)
  let rel :=
    if s.os_style = "windows" then rel0.replace "/" "\\"
    else if s.os_style = "posix" then rel0.replace "\\" "/"
    else rel0
  let path_display :=
    if s.output.path_style = "absolute" then "/" ++ String.intercalate "/" file else rel
  let header := "//\n//\t# File Path: " ++ path_display ++ " #\n//\n\n"
  let body :=
    match content with
    | some c => c
    | none => "// [Skipped: unreadable or binary file]\n"
  header ++ body ++ "\n\n"

/-- The recursive `rec` of `render_structure`.  `fuel` bounds the recursion
depth; every recursive call moves to a strictly longer key, so any fuel
larger than the longest key of the index reproduces the Python recursion. -/
def renderChildren (idx : List (Path × List Path)) (isDirF : Path → Bool) :
    Nat → Path → Nat → List String
  | 0, _, _ => []
  | fuel + 1, node, depth =>
    match idx.find? (fun e => e.1 == node) with
    | none => []
    | some e =>
      (e.2.map (fun child =>
        let indent := String.join (List.replicate depth "  ")
        let suffix := if isDirF child then "/" else ""
        (indent ++ baseName child ++ suffix ++ "\n") ::
          (if isDirF child then renderChildren idx isDirF fuel child (depth + 1) else [])
        )).flatten

/-- A fuel bound sufficient for `renderChildren` on a given index. -/
def renderFuel (idx : List (Path × List Path)) : Nat :=
  idx.foldl (fun m e => max m e.1.length) 0 + 2

/-- `render_structure`: title line, then either the root line followed by
the recursive listing, or the explicit placeholder, then a blank line. -/
def render_structure (iter_root : Path) (idx : List (Path × List Path))
    (isDirF : Path → Bool) : List String :=
  let first := ["## Project structure\n\n"]
  if idx.isEmpty then first ++ ["[No files matching the criteria]\n", "\n"]
  else
    first ++ ((baseName iter_root ++ "/\n") ::
      renderChildren idx isDirF (renderFuel idx) iter_root 1) ++ ["\n"]

/-- `os.path.join(cwd, name)` for POSIX strings: an absolute `name` stands
alone, otherwise it is appended to `cwd` with a separator. -/
def joinPath (cwd : String) (file_name : String) : String :=
  if file_name.data.head? = some '/' then file_name else cwd ++ "/" ++ file_name

/-- `safe_write`: an empty target name is silently skipped; otherwise the
write resolves the name against the current working directory and produces
the full path and the concatenated content. -/
def safe_write (cwd : String) (file_name : String) (ls : List String) :
    Option (String × String) :=
  if file_name = "" then none
  else some (joinPath cwd file_name, String.join ls)

/-- The effect of one performed write on the output filesystem:
`os.makedirs(dirname, exist_ok=True)` creates every ancestor directory of
the target, and mode `w` replaces any existing file at the path. -/
structure OutFS where
  dirs : List String
  files : List (String × String)
  deriving Repr

/-- The directories `os.makedirs(os.path.dirname p, exist_ok=True)` creates:
every prefix of the dirname of `p`. -/
def ancestorDirs (p : String) : List String :=
  let segs := ((splitOnChar '/' p.data).map String.mk).dropLast
  (List.range segs.length).map (fun i => String.intercalate "/" (segs.take (i + 1)))

/-- Apply one write: record the created ancestor directories and replace
any previous content at the full output path. -/
def applyWrite (fs : OutFS) (full_out : String) (content : String) : OutFS :=
  { dirs := ancestorDirs full_out ++ fs.dirs
    files := (full_out, content) :: fs.files.filter (fun e => !(e.1 == full_out)) }

/-- Read the output filesystem back. -/
def lookupOut (fs : OutFS) (p : String) : Option String :=
  (fs.files.find? (fun e => e.1 == p)).map (fun e => e.2)

/-- The write dispatch at the end of `run`: which targets receive which
rendered artifact, as the list of `report_data` entries `(file_name,
content)` in write order; `safe_write` skips empty names. -/
def writeOutputs (cwd : String) (out : OutputConfig)
    (struct_lines all_code_lines : List String) : List (String × String) :=
  let w := fun (name : String) (ls : List String) =>
    match safe_write cwd name ls with
    | none => []
    | some _ => [(name, String.join ls)]
  if out.mode = "structure" then w out.single_file struct_lines
  else if out.mode = "code" then w out.single_file all_code_lines
  else if out.mode = "split" then
    w out.structure_file struct_lines ++ w out.code_file all_code_lines
  else w out.single_file (struct_lines ++ all_code_lines)

/-- The world `run` interacts with: whether the settings file exists, the
filesystem tree under the configured iteration root (`none` when the root
does not exist), and the per-file read outcome used by `dump_file`. -/
structure RunWorld where
  settingsPresent : Bool
  rootDir : Option FSDir
  readF : Path → Option String

/-- `run`, from the point where the settings are parsed: exit code, messages
printed to stderr, and the performed writes (as report entries).  The
clipboard side effect carries no return value into `run` and is omitted. -/
def run (w : RunWorld) (s : Settings) (settingsPath : String) (settingsName : String)
    (cwd : String) : Nat × List String × List (String × String) :=
  if !w.settingsPresent then
    (2, ["Settings file not found: " ++ settingsPath], [])
  else
    let res := collect s w.rootDir settingsName
    if res.2 then
      (3, ["Error: Iteration root " ++ String.intercalate "/" s.iter_root ++ " is ignored."], [])
    else
      let files := res.1
      let isF := isDirAt w.rootDir s.iter_root
      let idx := build_index s.iter_root files isF
      let struct_lines := render_structure s.iter_root idx isF
      let code_contents := files.map (fun f => dump_file s.iter_root s f (w.readF f))
      let all_code_lines := "## Files\n\n" :: code_contents
      (0, [], writeOutputs cwd s.output struct_lines all_code_lines)

/-- A default output configuration used by concrete test instances. -/
def sampleOutput : OutputConfig :=
  { mode := "both", single_file := "out.txt", structure_file := "structure.txt",
    code_file := "code.txt", path_style := "relative" }

/-- A disabled clipboard configuration used by concrete test instances. -/
def sampleClipboard : ClipboardConfig :=
  { enabled := false, text := "" }

/-- Build a settings value for concrete test instances. -/
def mkSettings (root : Path) (ig : IgnoreConfig) (out : OutputConfig) : Settings :=
  { iter_root := root, os_style := "auto", output := out,
    clipboard := sampleClipboard, ignore := ig }

/-- Concrete settings for the pruning test: one directory-prune rule. -/
def settingsC5 : Settings :=
  mkSettings ["r"] ⟨[], [], ["node_modules"]⟩ sampleOutput

/-- Concrete tree for the pruning test. -/
def treeC5 : FSDir :=
  FSDir.node [("src", FSDir.node [] ["a.txt"])] []

/-- Concrete settings for the prior-output test: no ignore rules at all,
output file names as in `sampleOutput` (`out.txt` etc.). -/
def settingsC3 : Settings :=
  mkSettings ["r"] ⟨[], [], []⟩ sampleOutput

/-- Concrete tree for the prior-output test: the previously generated
`out.txt` sits inside the iteration tree. -/
def treeC3 : FSDir :=
  FSDir.node [] ["out.txt"]

/-- A second output configuration (different filenames) for independence tests. -/
def sampleOutput2 : OutputConfig :=
  { mode := "split", single_file := "other.txt", structure_file := "st2.txt",
    code_file := "c2.txt", path_style := "absolute" }

/-- A run world whose settings file is absent. -/
def worldMissingSettings : RunWorld :=
  { settingsPresent := false, rootDir := none, readF := fun _ => none }

/-- A run world whose settings file exists but whose iteration root does not. -/
def worldNoRoot : RunWorld :=
  { settingsPresent := true, rootDir := none, readF := fun _ => none }

/-- A run world with an existing, empty iteration root. -/
def worldEmptyRoot : RunWorld :=
  { settingsPresent := true, rootDir := some (FSDir.node [] []), readF := fun _ => none }

/-- Settings whose ignore patterns match the iteration root's own basename. -/
def settingsC4 : Settings :=
  mkSettings ["r"] ⟨[], ["r"], []⟩ sampleOutput

/-- A concrete `os.path.isdir` oracle for index tests: paths of at most
two segments are directories. -/
def isDirSample : Path → Bool := fun p => decide (p.length ≤ 2)

theorem foldl_step_data (ps : List Char) : ∀ acc : String,
    (ps.foldl (fun sb c =>
      if c = '*' then sb ++ ".*"
      else if c = '?' then sb ++ "."
      else if escapeChars.contains c then sb ++ "\\" ++ c.toString
      else sb ++ c.toString) acc).data = acc.data ++ globBody ps := by
  induction ps with
  | nil => intro acc; simp [globBody]
  | cons c ps ih =>
    intro acc
    rw [List.foldl_cons, ih]
    show _ = acc.data ++ (emitChar c ++ globBody ps)
    unfold emitChar
    by_cases h1 : c = '*'
    · simp [h1, String.data_append]
    · by_cases h2 : c = '?'
      · simp [h1, h2, String.data_append]
      · by_cases h3 : c ∈ escapeChars
        · simp [h1, h2, h3, String.data_append, Char.toString, String.singleton]
        · simp [h1, h2, h3, String.data_append, Char.toString, String.singleton]

theorem glob_to_regex_data (p : String) :
    (glob_to_regex p).data = '^' :: (globBody p.data ++ ['$']) := by
  unfold glob_to_regex
  rw [String.data_append, foldl_step_data]
  rfl

theorem emitChar_cons (c : Char) : ∃ h t, emitChar c = h :: t ∧ h ≠ '*' := by
  unfold emitChar
  by_cases h1 : c = '*'
  · exact ⟨'.', ['*'], by simp [h1], by decide⟩
  · by_cases h2 : c = '?'
    · exact ⟨'.', [], by simp [h1, h2], by decide⟩
    · by_cases h3 : c ∈ escapeChars
      · exact ⟨'\\', [c], by simp [h1, h2, h3], by decide⟩
      · exact ⟨c, [], by simp [h1, h2, h3], h1⟩

theorem globBody_eq_nil_iff (ps : List Char) : globBody ps = [] ↔ ps = [] := by
  cases ps with
  | nil => simp [globBody]
  | cons c ps =>
    simp only [globBody]
    obtain ⟨h, t, he, -⟩ := emitChar_cons c
    simp [he]

theorem globBody_head_ne_star (ps : List Char) (r : Char) (rest : List Char)
    (h : globBody ps = r :: rest) : r ≠ '*' := by
  cases ps with
  | nil => simp [globBody] at h
  | cons c ps =>
    simp only [globBody] at h
    obtain ⟨hd, t, he, hne⟩ := emitChar_cons c
    rw [he] at h
    simp only [List.cons_append, List.cons.injEq] at h
    exact h.1 ▸ hne

theorem globBody_head?_ne_star (ps : List Char) : (globBody ps).head? ≠ some '*' := by
  cases ps with
  | nil => simp [globBody]
  | cons c ps =>
    simp only [globBody]
    obtain ⟨h, t, he, hne⟩ := emitChar_cons c
    rw [he]
    simp [hne]

theorem parseBody_globBody : ∀ (ps : List Char),
    (∀ c ∈ ps, badChars.contains c = false) →
    ∀ fuel, (globBody ps).length < fuel →
    parseBody fuel (globBody ps) = some (ps.map elemOf) := by
  intro ps
  induction ps with
  | nil =>
    intro _ fuel _
    cases fuel <;> simp [globBody, parseBody]
  | cons c ps ih =>
    intro hclean fuel hf
    have hc : badChars.contains c = false := hclean c (List.mem_cons_self c ps)
    have hps : ∀ d ∈ ps, badChars.contains d = false := fun d hd =>
      hclean d (List.mem_cons_of_mem c hd)
    have hlb : ¬ c = '[' := fun h => by subst h; exact absurd hc (by decide)
    have hbs : ¬ c = '\\' := fun h => by subst h; exact absurd hc (by decide)
    obtain ⟨f, rfl⟩ : ∃ f, fuel = f + 1 := by
      cases fuel with
      | zero => exact absurd hf (by omega)
      | succ f => exact ⟨f, rfl⟩
    simp only [globBody] at hf ⊢
    by_cases h1 : c = '*'
    · subst h1
      have hlen : (globBody ps).length < f := by
        simp [emitChar, List.length_append] at hf
        omega
      have he : emitChar '*' ++ globBody ps = '.' :: '*' :: globBody ps := by
        simp [emitChar]
      rw [he]
      simp only [parseBody]
      norm_num
      rw [ih hps f hlen]
      simp [elemOf]
    · by_cases h2 : c = '?'
      · subst h2
        have he : emitChar '?' ++ globBody ps = '.' :: globBody ps := by
          simp [emitChar]
        rw [he] at hf ⊢
        have hlen : (globBody ps).length < f := by
          simp at hf
          omega
        simp only [parseBody]
        norm_num [globBody_head?_ne_star ps]
        rw [if_neg (show ¬ ('.' : Char) = '\\' from by decide)]
        rw [ih hps f hlen]
        simp [elemOf]
      · by_cases h3 : c ∈ escapeChars
        · have he : emitChar c ++ globBody ps = '\\' :: c :: globBody ps := by
            simp [emitChar, h1, h2, h3]
          rw [he] at hf ⊢
          have hlen : (globBody ps).length < f := by
            simp at hf
            omega
          simp only [parseBody]
          norm_num [h3]
          rw [ih hps f hlen]
          simp [elemOf, h1, h2]
        · have he : emitChar c ++ globBody ps = c :: globBody ps := by
            simp [emitChar, h1, h2, h3]
          rw [he] at hf ⊢
          have hlen : (globBody ps).length < f := by
            simp at hf
            omega
          have hdot : ¬ c = '.' := fun h => h3 (by rw [h]; decide)
          have hsp : ¬ c ∈ specialChars := by
            intro hmem
            fin_cases hmem <;> simp_all [escapeChars, badChars]
          simp only [parseBody]
          rw [if_neg hbs, if_neg hdot, if_neg hlb]
          rw [if_neg (by simpa using hsp)]
          rw [ih hps f hlen]
          simp [elemOf, h1, h2]

theorem parseRegexL_glob (pt : String) (h : ∀ c ∈ pt.data, badChars.contains c = false) :
    parseRegexL (glob_to_regex pt).data = some (pt.data.map elemOf) := by
  rw [glob_to_regex_data]
  simp only [parseRegexL, List.getLast?_concat, List.dropLast_concat, reduceIte]
  exact parseBody_globBody pt.data h _ (by simp)

theorem reMatch_map_elemOf : ∀ n ps cs, ps.length + cs.length ≤ n →
    (∀ c ∈ cs, c ≠ '\n') →
    reMatch (ps.map elemOf) cs = specGlobMatch ps cs := by
  intro n
  induction n with
  | zero =>
    intro ps cs hlen hcs
    have hps : ps = [] := by cases ps <;> simp_all
    have hcs0 : cs = [] := by cases cs <;> simp_all
    subst hps; subst hcs0
    simp [reMatch, specGlobMatch]
  | succ n ih =>
    intro ps cs hlen hcs
    cases ps with
    | nil => simp [reMatch, specGlobMatch]
    | cons p ps =>
      by_cases h1 : p = '*'
      · subst h1
        have he : elemOf '*' = RElem.star RAtom.any := rfl
        simp only [List.map_cons, he]
        cases cs with
        | nil =>
          simp only [reMatch, specGlobMatch, if_pos rfl]
          rw [ih ps [] (by simp at hlen ⊢; omega) (by simp)]
          simp
        | cons c cs =>
          have hcne : c ≠ '\n' := hcs c (by simp)
          have hcs' : ∀ d ∈ cs, d ≠ '\n' := fun d hd => hcs d (by simp [hd])
          simp only [reMatch, specGlobMatch, if_pos rfl]
          rw [ih ps (c :: cs) (by simp at hlen ⊢; omega) hcs]
          have : amatch RAtom.any c = true := by simp [amatch, hcne]
          rw [this]
          have hrec := ih ('*' :: ps) cs (by simp at hlen ⊢; omega) hcs'
          simp only [List.map_cons, he] at hrec
          rw [hrec]
          simp
      · by_cases h2 : p = '?'
        · subst h2
          have he : elemOf '?' = RElem.atom RAtom.any := rfl
          simp only [List.map_cons, he]
          cases cs with
          | nil => simp [reMatch, specGlobMatch]
          | cons c cs =>
            have hcne : c ≠ '\n' := hcs c (by simp)
            have hcs' : ∀ d ∈ cs, d ≠ '\n' := fun d hd => hcs d (by simp [hd])
            simp only [reMatch, specGlobMatch]
            rw [if_neg (show ¬ ('?' : Char) = '*' from by decide)]
            rw [ih ps cs (by simp at hlen ⊢; omega) hcs']
            simp [amatch, hcne]
        · have he : elemOf p = RElem.atom (RAtom.lit p) := by simp [elemOf, h1, h2]
          simp only [List.map_cons, he]
          cases cs with
          | nil => simp [reMatch, specGlobMatch, h1]
          | cons c cs =>
            have hcs' : ∀ d ∈ cs, d ≠ '\n' := fun d hd => hcs d (by simp [hd])
            simp only [reMatch, specGlobMatch]
            rw [if_neg h1, if_neg h2]
            rw [ih ps cs (by simp at hlen ⊢; omega) hcs']
            simp [amatch]

theorem reFullMatch_glob (pt s : String)
    (hp : ∀ c ∈ pt.data, badChars.contains c = false)
    (hs : ∀ c ∈ s.data, c ≠ '\n') :
    reFullMatch (glob_to_regex pt) s = specGlobMatch pt.data s.data := by
  unfold reFullMatch
  rw [parseRegexL_glob pt hp]
  exact reMatch_map_elemOf (pt.data.length + s.data.length) pt.data s.data le_rfl hs

theorem char_toNat_ofNat (m : Nat) (h : m.isValidChar) : (Char.ofNat m).toNat = m := by
  rw [Char.ofNat, dif_pos h]
  simp [Char.ofNatAux, Char.toNat, UInt32.toNat, BitVec.toNat_ofNatLt]

theorem char_toLower_eq_or (c : Char) :
    c.toLower = c ∨ (97 ≤ c.toLower.toNat ∧ c.toLower.toNat ≤ 122) := by
  by_cases hc : 65 ≤ c.toNat ∧ c.toNat ≤ 90
  · right
    have he : c.toLower = Char.ofNat (c.toNat + 32) := by
      unfold Char.toLower
      simp only [ge_iff_le]
      rw [if_pos hc]
    have hv : Nat.isValidChar (c.toNat + 32) := Or.inl (by omega)
    rw [he, char_toNat_ofNat _ hv]
    omega
  · left
    unfold Char.toLower
    simp only [ge_iff_le]
    rw [if_neg hc]

theorem toLower_badChars (c : Char) (h : badChars.contains c = false) :
    badChars.contains c.toLower = false := by
  rcases char_toLower_eq_or c with he | ⟨h1, h2⟩
  · rw [he]; exact h
  · by_contra hb
    rw [Bool.not_eq_false] at hb
    have hmem : c.toLower ∈ badChars := by simpa using hb
    simp only [badChars, List.mem_cons, List.mem_singleton, List.not_mem_nil, or_false] at hmem
    rcases hmem with hc | hc | hc | hc | hc <;>
      (rw [hc] at h1 h2; revert h1 h2; decide)

theorem toLower_ne_newline (c : Char) (h : c ≠ '\n') : c.toLower ≠ '\n' := by
  rcases char_toLower_eq_or c with he | ⟨h1, h2⟩
  · rw [he]; exact h
  · intro he
    rw [he] at h1
    exact absurd h1 (by decide)

theorem strLower_data (s : String) : (strLower s).data = s.data.map Char.toLower := rfl

unseal reMatch specGlobMatch walkCollect addAncestors List.merge List.mergeSort

theorem clean_strLower (s : String) (h : ∀ c ∈ s.data, badChars.contains c = false) :
    ∀ c ∈ (strLower s).data, badChars.contains c = false := by
  intro c hc
  rw [strLower_data] at hc
  obtain ⟨d, hd, rfl⟩ := List.mem_map.mp hc
  exact toLower_badChars d (h d hd)

theorem noNL_strLower (s : String) (h : ∀ c ∈ s.data, c ≠ '\n') :
    ∀ c ∈ (strLower s).data, c ≠ '\n' := by
  intro c hc
  rw [strLower_data] at hc
  obtain ⟨d, hd, rfl⟩ := List.mem_map.mp hc
  exact toLower_ne_newline d (h d hd)

theorem glob_match_ci_eq_spec (pat cand : String)
    (hp : ∀ c ∈ pat.data, badChars.contains c = false)
    (hc : ∀ c ∈ cand.data, c ≠ '\n') :
    glob_match_ci pat cand = spec_glob_ci pat cand := by
  unfold glob_match_ci spec_glob_ci
  exact reFullMatch_glob (strLower pat) (strLower cand) (clean_strLower pat hp)
    (noNL_strLower cand hc)

theorem char_toLower_of_not_upper (c : Char) (h : ¬(65 ≤ c.toNat ∧ c.toNat ≤ 90)) :
    c.toLower = c := by
  unfold Char.toLower
  simp only [ge_iff_le]
  rw [if_neg h]

theorem char_toLower_idem (c : Char) : c.toLower.toLower = c.toLower := by
  rcases char_toLower_eq_or c with he | ⟨h1, h2⟩
  · rw [he]
    exact he
  · exact char_toLower_of_not_upper c.toLower (by omega)

theorem strLower_idem (s : String) : strLower (strLower s) = strLower s := by
  unfold strLower
  simp only [List.map_map]
  have h : Char.toLower ∘ Char.toLower = Char.toLower := funext char_toLower_idem
  rw [h]

/-- C1 (amended): for patterns containing none of `[`, `]`, the curly
braces and backslash, and candidates containing no newline, the program's
compiled matcher is exactly the anchored, case-insensitive glob semantics
(`*` any run, `?` one character, everything else literal, full-string);
and the matcher is case-insensitive unconditionally. -/
theorem claim_C1_amended (pat cand : String)
    (hp : ∀ c ∈ pat.data, badChars.contains c = false)
    (hc : ∀ c ∈ cand.data, c ≠ '\n') :
    glob_match_ci pat cand = spec_glob_ci pat cand ∧
    glob_match_ci pat cand = glob_match_ci (strLower pat) (strLower cand) := by
  constructor
  · exact glob_match_ci_eq_spec pat cand hp hc
  · unfold glob_match_ci
    rw [strLower_idem, strLower_idem]

theorem claim_C1_witness :
    (∀ c ∈ "*.log".data, badChars.contains c = false) ∧
    (∀ c ∈ "A.LOG".data, c ≠ '\n') ∧
    (glob_match_ci "*.log" "A.LOG" = spec_glob_ci "*.log" "A.LOG" ∧
      glob_match_ci "*.log" "A.LOG" = glob_match_ci (strLower "*.log") (strLower "A.LOG")) :=
  ⟨by decide, by decide, claim_C1_amended "*.log" "A.LOG" (by decide) (by decide)⟩

/-- C1 is false as stated: a bracket character is not neutralized — the
compiled pattern `[ab]` matches the single character `a` (a regex class),
although under the claimed all-literal semantics `[ab]` matches only the
string `[ab]` and not `a`; moreover `?` does not match a newline although
the claim says it matches exactly one arbitrary character. -/
theorem claim_C1_counterexample :
    glob_match_ci "[ab]" "a" = true ∧ spec_glob_ci "[ab]" "a" = false ∧
    spec_glob_ci "[ab]" "[ab]" = true ∧
    glob_match_ci "?" "\n" = false ∧ spec_glob_ci "?" "\n" = true := by
  decide

theorem any_eq_of_forall_eq (l : List String) (f g : String → Bool)
    (h : ∀ x ∈ l, f x = g x) : l.any f = l.any g := by
  induction l with
  | nil => simp
  | cons a l ih =>
    simp only [List.any_cons]
    rw [h a (by simp), ih (fun x hx => h x (by simp [hx]))]

/-- C2 (amended): for an ignore pattern whose separator-normalized form
contains none of `[`, `]`, the braces and backslash, and path inputs free
of newlines, `match_pattern` succeeds exactly as described: a pattern with
a `/` matches iff the whole relative path matches it as one anchored
case-insensitive glob, and a pattern without `/` matches iff the basename
or some whole segment matches it — never substrings or partial segments. -/
theorem claim_C2_amended (pat rel_posix basename : String) (parts : List String)
    (hp : ∀ c ∈ (toPosix pat).data, badChars.contains c = false)
    (hrel : ∀ c ∈ rel_posix.data, c ≠ '\n')
    (hbn : ∀ c ∈ basename.data, c ≠ '\n')
    (hparts : ∀ p ∈ parts, ∀ c ∈ p.data, c ≠ '\n') :
    match_pattern rel_posix parts basename pat =
      (if (strLower (toPosix pat)).data.contains '/' then
        spec_glob_ci (toPosix pat) rel_posix
      else
        spec_glob_ci (toPosix pat) basename ||
          parts.any (fun p => spec_glob_ci (toPosix pat) p)) := by
  simp only [match_pattern]
  by_cases hs : (strLower (toPosix pat)).data.contains '/'
  · rw [if_pos hs, if_pos hs]
    exact glob_match_ci_eq_spec (toPosix pat) rel_posix hp hrel
  · rw [if_neg hs, if_neg hs]
    have hbneq : reFullMatch (glob_to_regex (strLower (toPosix pat))) (strLower basename) =
        spec_glob_ci (toPosix pat) basename :=
      glob_match_ci_eq_spec (toPosix pat) basename hp hbn
    rw [hbneq]
    have hany : parts.any (fun p => reFullMatch (glob_to_regex (strLower (toPosix pat)))
        (strLower p)) = parts.any (fun p => spec_glob_ci (toPosix pat) p) :=
      any_eq_of_forall_eq parts _ _ (fun p hp' =>
        glob_match_ci_eq_spec (toPosix pat) p hp (hparts p hp'))
    cases hb : spec_glob_ci (toPosix pat) basename
    · simp only [hb, Bool.false_eq_true, if_false, Bool.false_or]
      exact hany
    · simp [hb]

theorem claim_C2_witness :
    (∀ c ∈ (toPosix "*.log").data, badChars.contains c = false) ∧
    (∀ c ∈ "src/a.log".data, c ≠ '\n') ∧
    (∀ c ∈ "a.log".data, c ≠ '\n') ∧
    (∀ p ∈ ["src", "a.log"], ∀ c ∈ p.data, c ≠ '\n') ∧
    match_pattern "src/a.log" ["src", "a.log"] "a.log" "*.log" =
      (if (strLower (toPosix "*.log")).data.contains '/' then
        spec_glob_ci (toPosix "*.log") "src/a.log"
      else
        spec_glob_ci (toPosix "*.log") "a.log" ||
          (["src", "a.log"] : List String).any (fun p => spec_glob_ci (toPosix "*.log") p)) :=
  ⟨by decide, by decide, by decide, by decide,
    claim_C2_amended "*.log" "src/a.log" "a.log" ["src", "a.log"] (by decide) (by decide)
      (by decide) (by decide)⟩

/-- C2 is false as stated: for the slash-free pattern `[ab]` and a file
with basename `a` (relative path `a`, single segment `a`), the code
reports a match, yet neither the basename nor any segment matches `[ab]`
under the claimed glob semantics in which `[` and `]` are literal; and a
basename consisting of a newline is not matched by the pattern `?` though
the claimed semantics says `?` matches any single character. -/
theorem claim_C2_counterexample :
    match_pattern "a" ["a"] "a" "[ab]" = true ∧
    spec_glob_ci (toPosix "[ab]") "a" = false ∧
    (["a"] : List String).any (fun p => spec_glob_ci (toPosix "[ab]") p) = false ∧
    match_pattern "\n" ["\n"] "\n" "?" = false ∧
    spec_glob_ci (toPosix "?") "\n" = true := by
  decide

theorem FSDir.ind (motive : FSDir → Prop)
    (h : ∀ ds fs, (∀ p ∈ ds, motive p.2) → motive (FSDir.node ds fs)) :
    ∀ t, motive t
  | FSDir.node ds fs => h ds fs (fun p _hp => FSDir.ind motive h p.2)
termination_by t => sizeOf t
decreasing_by
  have h3 := List.sizeOf_lt_of_mem _hp
  cases hq : p with
  | mk a b =>
    rw [hq] at h3
    simp only [FSDir.node.sizeOf_spec]
    simp [Prod.mk.sizeOf_spec] at h3
    omega

/-- No directory segment strictly above the final element of `rel` is pruned. -/
def relOk (s : Settings) (rel : List String) : Prop :=
  ∀ pre d suf, rel = pre ++ d :: suf → suf ≠ [] → is_pruned_dir d s = false

theorem walkCollect_mem (iter_root : Path) (s : Settings) (fn : String) :
    ∀ t cur p, p ∈ walkCollect iter_root s fn t cur →
    ∃ rel, p = cur ++ rel ∧ rel ≠ [] ∧ relOk s rel := by
  intro t
  induction t using FSDir.ind with
  | h ds fs ih =>
    intro cur p hp
    simp only [walkCollect, List.mem_append, List.mem_map, List.mem_flatten,
      List.mem_filter, List.mem_attach, true_and, Subtype.exists] at hp
    rcases hp with ⟨f, hf, rfl⟩ | ⟨l, ⟨d, hd, rfl⟩, hpl⟩
    · refine ⟨[f], rfl, by simp, ?_⟩
      intro pre e suf hdec hsuf
      cases pre with
      | nil =>
        simp only [List.nil_append, List.cons.injEq] at hdec
        exact absurd hdec.2.symm hsuf
      | cons q pre' =>
        simp only [List.cons_append, List.cons.injEq] at hdec
        exact absurd hdec.2.symm (by simp)
    · have hdds : d ∈ ds := hd.1
      have hcond := hd.2
      rw [Bool.and_eq_true] at hcond
      have hnp : is_pruned_dir d.1 s = false := by
        have := hcond.1
        simpa using this
      obtain ⟨rel', hp', hne', hok'⟩ := ih d hdds (cur ++ [d.1]) p hpl
      refine ⟨d.1 :: rel', by rw [hp']; simp, by simp, ?_⟩
      intro pre e suf hdec hsuf
      cases pre with
      | nil =>
        simp only [List.nil_append, List.cons.injEq] at hdec
        rw [← hdec.1]
        exact hnp
      | cons q pre' =>
        simp only [List.cons_append, List.cons.injEq] at hdec
        exact hok' pre' e suf hdec.2 hsuf

/-- C5: directory pruning is transitive — if a file appears in the list
returned by `collect`, then no directory segment strictly above it (between
the iteration root and the file) matches a directory-prune rule; hence no
file beneath a pruned directory ever appears, regardless of the file's own
ignore status. -/
theorem claim_C5_pruning_transitive (s : Settings) (rootDir : Option FSDir) (fn : String)
    (p : Path) (pre : List String) (d : String) (suf : List String)
    (hmem : p ∈ (collect s rootDir fn).1)
    (hdec : p = s.iter_root ++ (pre ++ d :: suf)) (hsuf : suf ≠ []) :
    is_pruned_dir d s = false := by
  simp only [collect] at hmem
  by_cases hroot :
      is_ignored_path s.iter_root.dropLast s.iter_root rootDir.isSome s fn = true
  · rw [if_pos hroot] at hmem
    simp at hmem
  · rw [if_neg hroot] at hmem
    simp only [List.mem_mergeSort] at hmem
    cases rootDir with
    | none => simp at hmem
    | some t =>
      obtain ⟨rel, hprel, hne, hok⟩ :=
        walkCollect_mem s.iter_root s fn t s.iter_root p hmem
      have hrel : rel = pre ++ d :: suf := by
        rw [hdec] at hprel
        exact (List.append_cancel_left hprel).symm
      exact hok pre d suf hrel hsuf

set_option maxRecDepth 8000 in
set_option maxHeartbeats 1000000 in
theorem claim_C5_witness :
    ["r", "src", "a.txt"] ∈ (collect settingsC5 (some treeC5) "settings.jsonc").1 ∧
    (["r", "src", "a.txt"] : Path) =
      settingsC5.iter_root ++ (([] : List String) ++ "src" :: ["a.txt"]) ∧
    (["a.txt"] : List String) ≠ [] ∧
    is_pruned_dir "src" settingsC5 = false := by
  refine ⟨?_, by decide, by decide, ?_⟩
  · decide
  · exact claim_C5_pruning_transitive settingsC5 (some treeC5) "settings.jsonc"
      ["r", "src", "a.txt"] [] "src" ["a.txt"] (by decide) (by decide) (by decide)

/-- C7: the file list returned by `collect` is sorted ascending by the
root-relative, forward-slash, lowercased path key, and is a permutation of
the surviving files of the pruning walk (so sorting is the only thing that
determines presentation order). -/
theorem claim_C7_sorted_deterministic (s : Settings) (rootDir : Option FSDir) (fn : String) :
    List.Pairwise (fun a b => collectKey s.iter_root a ≤ collectKey s.iter_root b)
      (collect s rootDir fn).1 ∧
    (collect s rootDir fn).1.Perm
      (if is_ignored_path s.iter_root.dropLast s.iter_root rootDir.isSome s fn then []
       else
         match rootDir with
         | none => []
         | some t => walkCollect s.iter_root s fn t s.iter_root) := by
  have htrans : ∀ a b c : Path,
      decide (collectKey s.iter_root a ≤ collectKey s.iter_root b) = true →
      decide (collectKey s.iter_root b ≤ collectKey s.iter_root c) = true →
      decide (collectKey s.iter_root a ≤ collectKey s.iter_root c) = true := by
    intro a b c h1 h2
    simp only [decide_eq_true_eq] at h1 h2 ⊢
    exact le_trans h1 h2
  have htotal : ∀ a b : Path,
      (decide (collectKey s.iter_root a ≤ collectKey s.iter_root b) ||
        decide (collectKey s.iter_root b ≤ collectKey s.iter_root a)) = true := by
    intro a b
    rcases le_total (collectKey s.iter_root a) (collectKey s.iter_root b) with h | h <;>
      simp [h]
  by_cases hroot :
      is_ignored_path s.iter_root.dropLast s.iter_root rootDir.isSome s fn = true
  · simp only [collect, hroot, if_true]
    simp
  · simp only [collect, hroot, if_false, Bool.false_eq_true]
    constructor
    · exact (List.sorted_mergeSort htrans htotal _).imp (fun h => by simpa using h)
    · exact List.mergeSort_perm _ _

theorem walkCollect_output_irrel (iter_root : Path) (s : Settings) (o' : OutputConfig)
    (fn : String) :
    ∀ t cur, walkCollect iter_root { s with output := o' } fn t cur =
      walkCollect iter_root s fn t cur := by
  intro t
  induction t using FSDir.ind with
  | h ds fs ih =>
    intro cur
    simp only [walkCollect]
    have h1 : (fun f => !(is_ignored_path iter_root (cur ++ [f]) false
        { s with output := o' } fn)) =
        (fun f => !(is_ignored_path iter_root (cur ++ [f]) false s fn)) := rfl
    have h2 : (fun d : String × FSDir => !(is_pruned_dir d.1 { s with output := o' }) &&
        !(is_ignored_path iter_root (cur ++ [d.1]) true { s with output := o' } fn)) =
        (fun d : String × FSDir => !(is_pruned_dir d.1 s) &&
        !(is_ignored_path iter_root (cur ++ [d.1]) true s fn)) := rfl
    rw [h1, h2]
    refine congrArg₂ (· ++ ·) rfl (congrArg List.flatten ?_)
    rw [List.map_inj_left]
    intro a ha
    exact ih a.1 (List.mem_of_mem_filter a.2) (cur ++ [a.1.1])

theorem collect_output_irrel (s : Settings) (o' : OutputConfig) (rootDir : Option FSDir)
    (fn : String) :
    collect { s with output := o' } rootDir fn = collect s rootDir fn := by
  cases rootDir with
  | none => rfl
  | some t =>
    simp only [collect]
    rw [walkCollect_output_irrel s.iter_root s o' fn t s.iter_root]
    rfl

/-- C3 (amended): the collected file list does not consult the configured
output filenames at all — changing the whole output configuration leaves
`collect` unchanged — and the only name-equality exclusion in
`is_ignored_path` is the settings file basename. -/
theorem claim_C3_amended (s : Settings) (o' : OutputConfig) (rootDir : Option FSDir)
    (iter_root p : Path) (isDir : Bool) (fn : String) (hbn : baseName p = fn) :
    collect { s with output := o' } rootDir fn = collect s rootDir fn ∧
    is_ignored_path iter_root p isDir s fn = true := by
  refine ⟨collect_output_irrel s o' rootDir fn, ?_⟩
  simp only [is_ignored_path]
  rw [show (baseName p == fn) = true from by simp [hbn]]
  simp

theorem claim_C3_witness :
    baseName ["r", "settings.jsonc"] = "settings.jsonc" ∧
    (collect { settingsC3 with output := sampleOutput2 } none "settings.jsonc" =
      collect settingsC3 none "settings.jsonc" ∧
    is_ignored_path ["r"] ["r", "settings.jsonc"] false settingsC3 "settings.jsonc" = true) :=
  ⟨by decide, claim_C3_amended settingsC3 sampleOutput2 none ["r"] ["r", "settings.jsonc"]
    false "settings.jsonc" (by decide)⟩

set_option maxRecDepth 8000 in
set_option maxHeartbeats 1000000 in
/-- C3 is false as stated: with no ignore rules configured, a file named
exactly like the configured `single_file` output target (`out.txt`) inside
the iteration tree IS collected — the code never matches names against the
configured output filenames (only against the settings file name). -/
theorem claim_C3_counterexample :
    settingsC3.output.single_file = "out.txt" ∧
    baseName ["r", "out.txt"] = "out.txt" ∧
    collect settingsC3 (some treeC3) "settings.jsonc" = ([["r", "out.txt"]], false) := by
  refine ⟨by decide, by decide, ?_⟩
  decide

/-- C8: `dump_file` is a total function of the read outcome: the header
block is always emitted, a successful read contributes the raw content, and
a failed read (binary/unreadable/permission/encoding, the `except:` branch)
contributes exactly the fixed placeholder comment — so no exception can
escape to the caller and the other files of the run are unaffected. -/
theorem claim_C8_dump_placeholder (iter_root : Path) (s : Settings) (file : Path) :
    ∃ header : String,
      (∀ c : String, dump_file iter_root s file (some c) = header ++ c ++ "\n\n") ∧
      dump_file iter_root s file none =
        header ++ "// [Skipped: unreadable or binary file]\n" ++ "\n\n" := by
  refine ⟨"//\n//\t# File Path: " ++
    (if s.output.path_style = "absolute" then
      "/" ++ String.intercalate "/" file
     else
      (if s.os_style = "windows" then
        (String.intercalate "/" (file.drop iter_root.length)).replace "/" "\\"
       else if s.os_style = "posix" then
        (String.intercalate "/" (file.drop iter_root.length)).replace "\\" "/"
       else String.intercalate "/" (file.drop iter_root.length))) ++ " #\n//\n\n", ?_, ?_⟩
  · intro c
    rfl
  · rfl

/-- C9 (amended): any `output.mode` value whose lowercased form is not one
of `structure`, `code`, `split` (including a missing value, which defaults
to `both`) selects the default branch: one single write of the structure
lines followed by the code lines to `single_file` — provided `single_file`
is a nonempty name (an empty name is skipped by `safe_write`). -/
theorem claim_C9_amended (cwd : String) (out : OutputConfig) (modeField : Option String)
    (struct_lines all_code_lines : List String)
    (hmode : ¬ parse_mode modeField ∈ ["structure", "code", "split"])
    (hsingle : out.single_file ≠ "") :
    writeOutputs cwd { out with mode := parse_mode modeField } struct_lines all_code_lines =
      [(out.single_file, String.join (struct_lines ++ all_code_lines))] := by
  have h1 : ¬ parse_mode modeField = "structure" := fun h => hmode (by simp [h])
  have h2 : ¬ parse_mode modeField = "code" := fun h => hmode (by simp [h])
  have h3 : ¬ parse_mode modeField = "split" := fun h => hmode (by simp [h])
  simp [writeOutputs, safe_write, h1, h2, h3, hsingle]

theorem claim_C9_witness :
    (¬ parse_mode none ∈ ["structure", "code", "split"]) ∧
    sampleOutput.single_file ≠ "" ∧
    writeOutputs "/cwd" { sampleOutput with mode := parse_mode none } ["s1\n"] ["c1\n"] =
      [("out.txt", String.join (["s1\n"] ++ ["c1\n"]))] :=
  ⟨by decide, by decide,
    claim_C9_amended "/cwd" sampleOutput none ["s1\n"] ["c1\n"] (by decide) (by decide)⟩

/-- C9 is false as stated in two ways: the mode comparison is performed on
the lowercased value, so the value `SPLIT` — not literally one of
`structure`/`code`/`split` — behaves as `split`, not as the default `both`;
and when `single_file` is configured empty, the default branch writes no
file at all rather than exactly one. -/
theorem claim_C9_counterexample :
    parse_mode (some "SPLIT") = "split" ∧
    writeOutputs "/cwd" { sampleOutput with mode := parse_mode (some "SPLIT") }
        ["s1\n"] ["c1\n"] =
      [("structure.txt", "s1\n"), ("code.txt", "c1\n")] ∧
    writeOutputs "/cwd" { sampleOutput with mode := "bogus", single_file := "" }
        ["s1\n"] ["c1\n"] = [] := by
  decide

/-- C10: `safe_write` with an empty configured filename is silently skipped
(no write, no report entry); a nonempty filename resolves against the
process working directory (`os.path.join(cwd, name)`, which keeps an
absolute name and prefixes `cwd` to a relative one — the iteration root
plays no part), the write creates every parent directory of the target and
overwrites any existing file there. -/
theorem claim_C10_safe_write (cwd name : String) (ls : List String) (fs : OutFS)
    (hname : name ≠ "") :
    safe_write cwd "" ls = none ∧
    (∀ out : OutputConfig, out.single_file = "" → out.structure_file = "" →
      out.code_file = "" → writeOutputs cwd out ls ls = []) ∧
    safe_write cwd name ls = some (joinPath cwd name, String.join ls) ∧
    (¬ name.data.head? = some '/' → joinPath cwd name = cwd ++ "/" ++ name) ∧
    lookupOut (applyWrite fs (joinPath cwd name) (String.join ls)) (joinPath cwd name) =
      some (String.join ls) ∧
    (∀ d ∈ ancestorDirs (joinPath cwd name),
      d ∈ (applyWrite fs (joinPath cwd name) (String.join ls)).dirs) := by
  refine ⟨by simp [safe_write], ?_, by simp [safe_write, hname], ?_, ?_, ?_⟩
  · intro out h1 h2 h3
    simp only [writeOutputs, safe_write, h1, h2, h3]
    split <;> simp
  · intro h
    simp [joinPath, h]
  · simp [lookupOut, applyWrite]
  · intro d hd
    simp [applyWrite, hd]

theorem claim_C10_witness :
    ("sub/report.txt" : String) ≠ "" ∧
    (safe_write "/cw" "" ["x"] = none ∧
    (∀ out : OutputConfig, out.single_file = "" → out.structure_file = "" →
      out.code_file = "" → writeOutputs "/cw" out ["x"] ["x"] = []) ∧
    safe_write "/cw" "sub/report.txt" ["x"] =
      some (joinPath "/cw" "sub/report.txt", String.join ["x"]) ∧
    (¬ ("sub/report.txt" : String).data.head? = some '/' →
      joinPath "/cw" "sub/report.txt" = "/cw" ++ "/" ++ "sub/report.txt") ∧
    lookupOut (applyWrite ⟨[], [("/cw/sub/report.txt", "old")]⟩
        (joinPath "/cw" "sub/report.txt") (String.join ["x"]))
      (joinPath "/cw" "sub/report.txt") = some (String.join ["x"]) ∧
    (∀ d ∈ ancestorDirs (joinPath "/cw" "sub/report.txt"),
      d ∈ (applyWrite ⟨[], [("/cw/sub/report.txt", "old")]⟩
        (joinPath "/cw" "sub/report.txt") (String.join ["x"])).dirs)) :=
  ⟨by decide, claim_C10_safe_write "/cw" "sub/report.txt" ["x"]
    ⟨[], [("/cw/sub/report.txt", "old")]⟩ (by decide)⟩

/-- C4 (amended): a missing settings file exits with code 2 and a stderr
diagnostic, writing nothing; an iteration root that is itself ignored
(evaluated against its parent directory) exits with code 3 and a stderr
diagnostic, writing nothing; otherwise the run finishes with exit code 0.
(A missing iteration root is NOT detected — see the counterexample.) -/
theorem claim_C4_amended (w : RunWorld) (s : Settings) (sp sn cwd : String) :
    (w.settingsPresent = false →
      run w s sp sn cwd = (2, ["Settings file not found: " ++ sp], [])) ∧
    (w.settingsPresent = true → (collect s w.rootDir sn).2 = true →
      (run w s sp sn cwd).1 = 3 ∧ (run w s sp sn cwd).2.2 = [] ∧
      (run w s sp sn cwd).2.1 ≠ []) ∧
    (w.settingsPresent = true → (collect s w.rootDir sn).2 = false →
      (run w s sp sn cwd).1 = 0) := by
  refine ⟨?_, ?_, ?_⟩
  · intro h
    simp [run, h]
  · intro h1 h2
    simp [run, h1, h2]
  · intro h1 h2
    simp [run, h1, h2]

set_option maxRecDepth 8000 in
set_option maxHeartbeats 1000000 in
theorem claim_C4_witness :
    (worldMissingSettings.settingsPresent = false ∧
      run worldMissingSettings settingsC3 "/cfg/settings.jsonc" "settings.jsonc" "/cwd" =
        (2, ["Settings file not found: /cfg/settings.jsonc"], [])) ∧
    (worldEmptyRoot.settingsPresent = true ∧
      (collect settingsC4 worldEmptyRoot.rootDir "settings.jsonc").2 = true ∧
      (run worldEmptyRoot settingsC4 "/cfg/settings.jsonc" "settings.jsonc" "/cwd").1 = 3 ∧
      (run worldEmptyRoot settingsC4 "/cfg/settings.jsonc" "settings.jsonc" "/cwd").2.2 = [] ∧
      (run worldEmptyRoot settingsC4 "/cfg/settings.jsonc" "settings.jsonc" "/cwd").2.1 ≠ []) ∧
    (worldEmptyRoot.settingsPresent = true ∧
      (collect settingsC3 worldEmptyRoot.rootDir "settings.jsonc").2 = false ∧
      (run worldEmptyRoot settingsC3 "/cfg/settings.jsonc" "settings.jsonc" "/cwd").1 = 0) :=
  ⟨⟨rfl, (claim_C4_amended worldMissingSettings settingsC3 "/cfg/settings.jsonc"
      "settings.jsonc" "/cwd").1 rfl⟩,
   ⟨rfl, by decide,
    (claim_C4_amended worldEmptyRoot settingsC4 "/cfg/settings.jsonc"
      "settings.jsonc" "/cwd").2.1 rfl (by decide)⟩,
   ⟨rfl, by decide,
    (claim_C4_amended worldEmptyRoot settingsC3 "/cfg/settings.jsonc"
      "settings.jsonc" "/cwd").2.2 rfl (by decide)⟩⟩

set_option maxRecDepth 8000 in
set_option maxHeartbeats 1000000 in
/-- C4 is false as stated for a missing iteration root: with the root
directory absent from the filesystem (`os.walk` silently yields nothing)
and benign settings, the run exits with code 0, prints nothing to stderr,
and writes its (empty-listing) output files — it does not exit with a
distinct non-zero code. -/
theorem claim_C4_counterexample :
    worldNoRoot.rootDir = none ∧
    (run worldNoRoot settingsC3 "/cfg/settings.jsonc" "settings.jsonc" "/cwd").1 = 0 ∧
    (run worldNoRoot settingsC3 "/cfg/settings.jsonc" "settings.jsonc" "/cwd").2.1 = [] ∧
    (run worldNoRoot settingsC3 "/cfg/settings.jsonc" "settings.jsonc" "/cwd").2.2 ≠ [] := by
  refine ⟨rfl, ?_, ?_, ?_⟩ <;> decide

theorem insertChild_mem (ys : List Path) (c x : Path) :
    x ∈ insertChild ys c ↔ x ∈ ys ∨ x = c := by
  unfold insertChild
  by_cases h : ys.contains c
  · rw [if_pos h]
    constructor
    · exact Or.inl
    · rintro (hx | rfl)
      · exact hx
      · simpa using h
  · rw [if_neg h]
    simp

theorem insertChild_nodup (ys : List Path) (c : Path) (h : ys.Nodup) :
    (insertChild ys c).Nodup := by
  unfold insertChild
  by_cases hc : ys.contains c
  · rwa [if_pos hc]
  · rw [if_neg hc]
    simp only [List.nodup_append, List.nodup_singleton, true_and, and_true]
    refine ⟨h, ?_⟩
    intro x hx hxc
    simp only [List.mem_singleton] at hxc
    subst hxc
    exact hc (by simpa using hx)

theorem insertChild_ne_nil (ys : List Path) (c : Path) : insertChild ys c ≠ [] := by
  unfold insertChild
  by_cases hc : ys.contains c
  · rw [if_pos hc]
    intro h
    subst h
    simp at hc
  · rw [if_neg hc]
    simp

theorem childrenOf_nil (k : Path) : childrenOf [] k = [] := rfl

theorem childrenOf_cons (e : Path × List Path) (rest : List (Path × List Path)) (k : Path) :
    childrenOf (e :: rest) k = if e.1 = k then e.2 else childrenOf rest k := by
  simp only [childrenOf, List.find?]
  by_cases h : e.1 = k
  · simp [h]
  · simp [beq_false_of_ne h, h]

theorem childrenOf_insertEdge (idx : List (Path × List Path)) (p c k : Path) :
    childrenOf (insertEdge idx p c) k =
      if k = p then insertChild (childrenOf idx p) c else childrenOf idx k := by
  induction idx with
  | nil =>
    simp only [insertEdge]
    rw [childrenOf_cons]
    by_cases h : k = p
    · rw [if_pos (h.symm : p = k), if_pos h, childrenOf_nil]
      rfl
    · rw [if_neg (fun hh => h hh.symm), if_neg h]
  | cons e rest ih =>
    simp only [insertEdge]
    by_cases hep : e.1 = p
    · rw [if_pos hep]
      by_cases hk : k = p
      · have h1 : e.1 = k := by rw [hep, hk]
        simp [childrenOf_cons, h1, hk, hep]
      · have h1 : ¬ e.1 = k := by
          rw [hep]
          exact fun hh => hk hh.symm
        simp [childrenOf_cons, h1, hk]
    · rw [if_neg hep]
      by_cases hke : e.1 = k
      · have hkp : ¬ k = p := fun hh => hep (hke.trans hh)
        simp [childrenOf_cons, hke, hkp]
      · by_cases hk : k = p
        · rw [hk] at ih
          simp only [if_pos rfl] at ih
          simp [childrenOf_cons, hke, hk, hep, ih]
        · simp [childrenOf_cons, hke, hk, ih]

theorem keys_insertEdge (idx : List (Path × List Path)) (p c k : Path) :
    k ∈ (insertEdge idx p c).map (fun e => e.1) ↔
      k ∈ idx.map (fun e => e.1) ∨ k = p := by
  induction idx with
  | nil => simp [insertEdge]
  | cons e rest ih =>
    simp only [insertEdge]
    by_cases hep : e.1 = p
    · rw [if_pos hep]
      simp only [List.map_cons, List.mem_cons]
      constructor
      · rintro (h | h)
        · exact Or.inl (Or.inl h)
        · exact Or.inl (Or.inr h)
      · rintro ((h | h) | h)
        · exact Or.inl h
        · exact Or.inr h
        · exact Or.inl (h.trans hep.symm)
    · rw [if_neg hep]
      simp only [List.map_cons, List.mem_cons, ih]
      tauto

theorem entries_insertEdge (idx : List (Path × List Path)) (p c : Path)
    (h : ∀ e ∈ idx, e.2 ≠ []) : ∀ e ∈ insertEdge idx p c, e.2 ≠ [] := by
  induction idx with
  | nil =>
    simp [insertEdge]
  | cons e rest ih =>
    simp only [insertEdge]
    by_cases hep : e.1 = p
    · rw [if_pos hep]
      intro x hx
      rcases List.mem_cons.mp hx with rfl | hx
      · exact insertChild_ne_nil _ _
      · exact h x (List.mem_cons_of_mem e hx)
    · rw [if_neg hep]
      intro x hx
      rcases List.mem_cons.mp hx with rfl | hx
      · exact h x (List.mem_cons_self x rest)
      · exact ih (fun y hy => h y (List.mem_cons_of_mem e hy)) x hx

theorem keys_iff_childrenOf_ne_nil (idx : List (Path × List Path))
    (h : ∀ e ∈ idx, e.2 ≠ []) (k : Path) :
    k ∈ idx.map (fun e => e.1) ↔ childrenOf idx k ≠ [] := by
  induction idx with
  | nil => simp [childrenOf_nil]
  | cons e rest ih =>
    rw [childrenOf_cons]
    simp only [List.map_cons, List.mem_cons]
    by_cases hek : e.1 = k
    · rw [if_pos hek]
      simp only [hek, true_or, true_iff]
      exact h e (List.mem_cons_self e rest)
    · rw [if_neg hek]
      rw [ih (fun y hy => h y (List.mem_cons_of_mem e hy))]
      constructor
      · rintro (hh | hh)
        · exact absurd hh.symm hek
        · exact hh
      · exact Or.inr

theorem lowerPath_length (p : Path) : (lowerPath p).length = p.length := by
  simp [lowerPath]

theorem chainEdges_singleton (root : Path) (a : String) :
    chainEdges root [a] = [(root, root ++ [a])] := by
  simp [chainEdges, List.range_succ]

theorem chainEdges_concat (root : Path) (l : List String) (a : String) :
    chainEdges root (l ++ [a]) = chainEdges root l ++ [(root ++ l, root ++ (l ++ [a]))] := by
  unfold chainEdges
  rw [List.length_append, List.length_singleton, List.range_succ, List.map_append]
  congr 1
  · apply List.map_congr_left
    intro j hj
    rw [List.mem_range] at hj
    rw [List.take_append_of_le_length (by omega), List.take_append_of_le_length (by omega)]
  · rw [List.map_singleton]
    rw [List.take_append_of_le_length (le_refl _), List.take_length]
    rw [show l.length + 1 = (l ++ [a]).length from by simp, List.take_length]

theorem addAncestors_stop (root : Path) (idx : List (Path × List Path)) (a : String) :
    addAncestors root idx (root ++ [a]) = insertEdge idx root (root ++ [a]) := by
  rw [addAncestors]
  rw [List.dropLast_concat]
  rw [if_pos (Or.inl rfl)]

theorem addAncestors_step (root : Path) (idx : List (Path × List Path))
    (l : List String) (a : String) (hl : l ≠ []) :
    addAncestors root idx (root ++ (l ++ [a])) =
      addAncestors root (insertEdge idx (root ++ l) (root ++ (l ++ [a]))) (root ++ l) := by
  have hd : (root ++ (l ++ [a])).dropLast = root ++ l := by
    rw [← List.append_assoc, List.dropLast_concat]
  rw [addAncestors, hd]
  rw [if_neg ?_]
  rintro (h | h)
  · have := congrArg List.length h
    simp only [lowerPath_length, List.length_append] at this
    have : l.length = 0 := by omega
    exact hl (List.length_eq_zero.mp this)
  · simp only [List.length_append] at h
    have : l.length = 0 := by omega
    exact hl (List.length_eq_zero.mp this)

theorem addAncestors_children (root : Path) (rel : List String) :
    rel ≠ [] → ∀ idx k x,
    (x ∈ childrenOf (addAncestors root idx (root ++ rel)) k ↔
      x ∈ childrenOf idx k ∨ (k, x) ∈ chainEdges root rel) := by
  induction rel using List.reverseRecOn with
  | nil => intro h; exact absurd rfl h
  | append_singleton l a ih =>
    intro _ idx k x
    rcases eq_or_ne l [] with rfl | hl
    · rw [List.nil_append, addAncestors_stop, childrenOf_insertEdge, chainEdges_singleton]
      by_cases hk : k = root
      · rw [if_pos hk, insertChild_mem]
        subst hk
        simp [Prod.ext_iff]
      · rw [if_neg hk]
        simp [Prod.ext_iff, hk]
    · rw [addAncestors_step root idx l a hl, ih hl, childrenOf_insertEdge, chainEdges_concat]
      simp only [List.mem_append, List.mem_singleton, Prod.ext_iff]
      by_cases hk : k = root ++ l
      · rw [if_pos hk, insertChild_mem]
        subst hk
        tauto
      · rw [if_neg hk]
        tauto

theorem addAncestors_entries (full_root : Path) :
    ∀ n (current : Path) idx, current.length ≤ n →
    (∀ e ∈ idx, e.2 ≠ []) → ∀ e ∈ addAncestors full_root idx current, e.2 ≠ [] := by
  intro n
  induction n with
  | zero =>
    intro current idx hlen h
    rw [addAncestors]
    split
    · exact entries_insertEdge idx _ _ h
    · rename_i hcond
      exfalso
      apply hcond
      right
      simp only [List.length_dropLast]
      omega
  | succ n ihn =>
    intro current idx hlen h
    rw [addAncestors]
    split
    · exact entries_insertEdge idx _ _ h
    · apply ihn
      · simp only [List.length_dropLast]
        omega
      · exact entries_insertEdge idx _ _ h

theorem addAncestors_nodup (full_root : Path) :
    ∀ n (current : Path) idx, current.length ≤ n →
    (∀ k, (childrenOf idx k).Nodup) →
    ∀ k, (childrenOf (addAncestors full_root idx current) k).Nodup := by
  intro n
  induction n with
  | zero =>
    intro current idx hlen h k
    rw [addAncestors]
    split
    · rw [childrenOf_insertEdge]
      split
      · exact insertChild_nodup _ _ (h _)
      · exact h k
    · rename_i hcond
      exfalso
      apply hcond
      right
      simp only [List.length_dropLast]
      omega
  | succ n ihn =>
    intro current idx hlen h k
    rw [addAncestors]
    split
    · rw [childrenOf_insertEdge]
      split
      · exact insertChild_nodup _ _ (h _)
      · exact h k
    · apply ihn
      · simp only [List.length_dropLast]
        omega
      · intro k'
        rw [childrenOf_insertEdge]
        split
        · exact insertChild_nodup _ _ (h _)
        · exact h k'

theorem foldl_addAncestors_children (root : Path) :
    ∀ (files : List Path), (∀ f ∈ files, ∃ rel, rel ≠ [] ∧ f = root ++ rel) →
    ∀ idx k x,
    (x ∈ childrenOf (files.foldl (fun i f => addAncestors root i f) idx) k ↔
      x ∈ childrenOf idx k ∨ ∃ f ∈ files, ∃ rel, rel ≠ [] ∧ f = root ++ rel ∧
        (k, x) ∈ chainEdges root rel) := by
  intro files
  induction files with
  | nil => simp
  | cons f fs ih =>
    intro hf idx k x
    obtain ⟨rel, hne, rfl⟩ := hf _ (List.mem_cons_self f fs)
    rw [List.foldl_cons]
    rw [ih (fun g hg => hf g (List.mem_cons_of_mem _ hg))
      (addAncestors root idx (root ++ rel)) k x]
    rw [addAncestors_children root rel hne idx k x]
    constructor
    · rintro ((h | h) | ⟨g, hg, rel', h1, h2, h3⟩)
      · exact Or.inl h
      · exact Or.inr ⟨root ++ rel, List.mem_cons_self _ _, rel, hne, rfl, h⟩
      · exact Or.inr ⟨g, List.mem_cons_of_mem _ hg, rel', h1, h2, h3⟩
    · rintro (h | ⟨g, hg, rel', h1, h2, h3⟩)
      · exact Or.inl (Or.inl h)
      · rcases List.mem_cons.mp hg with heq | hg
        · have hrr : rel' = rel := List.append_cancel_left (heq ▸ h2).symm
          subst hrr
          exact Or.inl (Or.inr h3)
        · exact Or.inr ⟨g, hg, rel', h1, h2, h3⟩

theorem foldl_addAncestors_nodup (root : Path) :
    ∀ (files : List Path) idx, (∀ k, (childrenOf idx k).Nodup) →
    ∀ k, (childrenOf (files.foldl (fun i f => addAncestors root i f) idx) k).Nodup := by
  intro files
  induction files with
  | nil => intro idx h k; exact h k
  | cons f fs ih =>
    intro idx h k
    rw [List.foldl_cons]
    exact ih _ (addAncestors_nodup root f.length f idx le_rfl h) k

theorem foldl_addAncestors_entries (root : Path) :
    ∀ (files : List Path) idx, (∀ e ∈ idx, e.2 ≠ []) →
    ∀ e ∈ files.foldl (fun i f => addAncestors root i f) idx, e.2 ≠ [] := by
  intro files
  induction files with
  | nil => intro idx h; exact h
  | cons f fs ih =>
    intro idx h
    rw [List.foldl_cons]
    exact ih _ (addAncestors_entries root f.length f idx le_rfl h)

theorem childrenOf_map_sort (le : Path → Path → Bool) :
    ∀ (idx : List (Path × List Path)) (k : Path),
    childrenOf (idx.map (fun e => (e.1, e.2.mergeSort le))) k =
      (childrenOf idx k).mergeSort le := by
  intro idx
  induction idx with
  | nil => intro k; simp [childrenOf_nil]
  | cons e rest ih =>
    intro k
    rw [List.map_cons, childrenOf_cons, childrenOf_cons]
    by_cases h : e.1 = k
    · rw [if_pos h, if_pos h]
    · rw [if_neg h, if_neg h, ih]

theorem mem_chainEdges (root : Path) (rel : List String) (k x : Path) :
    (k, x) ∈ chainEdges root rel ↔
      ∃ j, j < rel.length ∧ k = root ++ rel.take j ∧ x = root ++ rel.take (j + 1) := by
  simp [chainEdges, List.mem_map, List.mem_range, Prod.ext_iff]
  constructor
  · rintro ⟨j, hj, hk, hx⟩
    exact ⟨j, hj, hk.symm, hx.symm⟩
  · rintro ⟨j, hj, hk, hx⟩
    exact ⟨j, hj, hk.symm, hx.symm⟩

theorem childLE_trans (isDirF : Path → Bool) (a b c : Path)
    (h1 : childLE isDirF a b = true) (h2 : childLE isDirF b c = true) :
    childLE isDirF a c = true := by
  simp only [childLE, Bool.or_eq_true, Bool.and_eq_true, decide_eq_true_eq,
    beq_iff_eq] at h1 h2 ⊢
  rcases h1 with h1 | ⟨h1a, h1b⟩ <;> rcases h2 with h2 | ⟨h2a, h2b⟩
  · exact Or.inl (by omega)
  · exact Or.inl (by omega)
  · exact Or.inl (by omega)
  · exact Or.inr ⟨by omega, le_trans h1b h2b⟩

theorem childLE_total (isDirF : Path → Bool) (a b : Path) :
    (childLE isDirF a b || childLE isDirF b a) = true := by
  simp only [childLE, Bool.or_eq_true, Bool.and_eq_true, decide_eq_true_eq, beq_iff_eq]
  rcases Nat.lt_trichotomy (childKind isDirF a) (childKind isDirF b) with h | h | h
  · exact Or.inl (Or.inl h)
  · rcases le_total (strLower (baseName a)) (strLower (baseName b)) with hs | hs
    · exact Or.inl (Or.inr ⟨h, hs⟩)
    · exact Or.inr (Or.inr ⟨h.symm, hs⟩)
  · exact Or.inr (Or.inl h)

theorem list_ne_nil_iff_exists_mem {α : Type} (l : List α) :
    l ≠ [] ↔ ∃ x, x ∈ l := by
  cases l with
  | nil => simp
  | cons a l => simp [List.cons_ne_nil]

/-- C6: `build_index` reconstructs exactly the ancestor chains of the given
files: its keys are precisely the directories `root ++ rel.take j`
(`j < rel.length`) of some file `root ++ rel` — the root included, nothing
above it — its children lists hold exactly the corresponding parent-child
edges, contain no duplicates, and are sorted with directories before files
and case-insensitively by basename within each group. -/
theorem claim_C6_tree_index (root : Path) (files : List Path) (isDirF : Path → Bool)
    (hf : ∀ f ∈ files, ∃ rel, rel ≠ [] ∧ f = root ++ rel) :
    (∀ k, k ∈ (build_index root files isDirF).map (fun e => e.1) ↔
      ∃ f ∈ files, ∃ rel j, rel ≠ [] ∧ f = root ++ rel ∧ j < rel.length ∧
        k = root ++ rel.take j) ∧
    (∀ k x, x ∈ childrenOf (build_index root files isDirF) k ↔
      ∃ f ∈ files, ∃ rel j, rel ≠ [] ∧ f = root ++ rel ∧ j < rel.length ∧
        k = root ++ rel.take j ∧ x = root ++ rel.take (j + 1)) ∧
    (∀ k, (childrenOf (build_index root files isDirF) k).Nodup) ∧
    (∀ k, (childrenOf (build_index root files isDirF) k).Pairwise
      (fun a b => childLE isDirF a b = true)) := by
  have hchild : ∀ k x, x ∈ childrenOf (build_index root files isDirF) k ↔
      ∃ f ∈ files, ∃ rel, rel ≠ [] ∧ f = root ++ rel ∧ (k, x) ∈ chainEdges root rel := by
    intro k x
    unfold build_index
    rw [childrenOf_map_sort, List.mem_mergeSort,
      foldl_addAncestors_children root files hf [] k x]
    simp [childrenOf_nil]
  have hkeysraw : ∀ k, k ∈ (build_index root files isDirF).map (fun e => e.1) ↔
      childrenOf (build_index root files isDirF) k ≠ [] := by
    intro k
    unfold build_index
    constructor
    · intro hk
      rw [List.map_map] at hk
      rw [childrenOf_map_sort]
      have hraw := (keys_iff_childrenOf_ne_nil _
        (foldl_addAncestors_entries root files [] (by simp)) k).mp hk
      intro hcon
      apply hraw
      have := congrArg List.length hcon
      rw [List.length_mergeSort] at this
      exact List.length_eq_zero.mp this
    · intro hk
      rw [List.map_map]
      rw [childrenOf_map_sort] at hk
      apply (keys_iff_childrenOf_ne_nil _
        (foldl_addAncestors_entries root files [] (by simp)) k).mpr
      intro hcon
      rw [hcon] at hk
      simp at hk
  refine ⟨?_, ?_, ?_, ?_⟩
  · intro k
    rw [hkeysraw k, list_ne_nil_iff_exists_mem]
    constructor
    · rintro ⟨x, hx⟩
      obtain ⟨f, hfm, rel, h1, h2, h3⟩ := (hchild k x).mp hx
      obtain ⟨j, hj, hk, -⟩ := (mem_chainEdges root rel k x).mp h3
      exact ⟨f, hfm, rel, j, h1, h2, hj, hk⟩
    · rintro ⟨f, hfm, rel, j, h1, h2, hj, hk⟩
      refine ⟨root ++ rel.take (j + 1), (hchild _ _).mpr ⟨f, hfm, rel, h1, h2, ?_⟩⟩
      exact (mem_chainEdges root rel k _).mpr ⟨j, hj, hk, rfl⟩
  · intro k x
    rw [hchild k x]
    constructor
    · rintro ⟨f, hfm, rel, h1, h2, h3⟩
      obtain ⟨j, hj, hk, hx⟩ := (mem_chainEdges root rel k x).mp h3
      exact ⟨f, hfm, rel, j, h1, h2, hj, hk, hx⟩
    · rintro ⟨f, hfm, rel, j, h1, h2, hj, hk, hx⟩
      exact ⟨f, hfm, rel, h1, h2, (mem_chainEdges root rel k x).mpr ⟨j, hj, hk, hx⟩⟩
  · intro k
    unfold build_index
    rw [childrenOf_map_sort]
    exact ((List.mergeSort_perm _ _).nodup_iff).mpr
      (foldl_addAncestors_nodup root files [] (fun k => by simp [childrenOf_nil]) k)
  · intro k
    unfold build_index
    rw [childrenOf_map_sort]
    exact List.sorted_mergeSort (childLE_trans isDirF) (childLE_total isDirF) _

theorem claim_C6_witness :
    (∀ f ∈ [["r", "a", "b.txt"]], ∃ rel, rel ≠ [] ∧ f = ["r"] ++ rel) ∧
    ["r", "a"] ∈ childrenOf (build_index ["r"] [["r", "a", "b.txt"]] isDirSample) ["r"] ∧
    ["r", "a", "b.txt"] ∈
      childrenOf (build_index ["r"] [["r", "a", "b.txt"]] isDirSample) ["r", "a"] ∧
    ["r"] ∈ (build_index ["r"] [["r", "a", "b.txt"]] isDirSample).map (fun e => e.1) := by
  have hfp : ∀ f ∈ [["r", "a", "b.txt"]], ∃ rel, rel ≠ [] ∧ f = ["r"] ++ rel := by
    intro f hfm
    simp only [List.mem_singleton] at hfm
    subst hfm
    exact ⟨["a", "b.txt"], by simp, rfl⟩
  have h := claim_C6_tree_index ["r"] [["r", "a", "b.txt"]] isDirSample hfp
  refine ⟨hfp, ?_, ?_, ?_⟩
  · exact (h.2.1 ["r"] ["r", "a"]).mpr
      ⟨["r", "a", "b.txt"], by simp, ["a", "b.txt"], 0, by simp, rfl, by simp, rfl, rfl⟩
  · exact (h.2.1 ["r", "a"] ["r", "a", "b.txt"]).mpr
      ⟨["r", "a", "b.txt"], by simp, ["a", "b.txt"], 1, by simp, rfl, by simp, rfl, rfl⟩
  · exact (h.1 ["r"]).mpr
      ⟨["r", "a", "b.txt"], by simp, ["a", "b.txt"], 0, by simp, rfl, by simp, rfl⟩

end AiContextDump
